import Mathlib

/-!
# Verification of `bevy_hanabi` core (`src/lib.rs`)

This file gives a shallow embedding, in Lean 4, of the code of `src/lib.rs`:

* the `ToWgslFloat` trait implementations for `f32` and `f64`
  (`format!("{:.6}", x)` resp. `format!("{:.15}", x)` followed by
  `trim_end_matches("0")`), and
* the `ParticleEffect` component with its `new` and `spawner` methods.

Finite IEEE floating-point values are embedded as their exact rational
values (every finite `f32`/`f64` is a dyadic rational); the non-finite
values NaN, +inf and -inf are separate constructors of `FloatVal`.
Rust's fixed-precision `Display` formatting renders the exact decimal
value of the float rounded to the requested number of fractional digits
(round to nearest, ties to even), as sign + integer digits + '.' +
zero-padded fractional digits; NaN renders as "NaN" and the infinities
as "inf"/"-inf".  That algorithm is modelled here over `ℚ`.
-/

/-- The ten decimal digit characters; any other digit index maps to `'*'`
(never produced: all digits we render are `< 10`). -/
def digitToChar (d : ℕ) : Char :=
  match d with
  | 0 => '0'
  | 1 => '1'
  | 2 => '2'
  | 3 => '3'
  | 4 => '4'
  | 5 => '5'
  | 6 => '6'
  | 7 => '7'
  | 8 => '8'
  | 9 => '9'
  | _ => '*'

/-- Decode a decimal digit character; `none` on a non-digit. -/
def charToDigit (c : Char) : Option ℕ :=
  if 48 ≤ c.toNat ∧ c.toNat ≤ 57 then some (c.toNat - 48) else none

/-- Little-endian base-10 digits of a natural number, with explicit fuel
(structural recursion, so concrete inputs evaluate by `decide`). `0`
yields the empty list. -/
def natDigitsRevAux : ℕ → ℕ → List ℕ
  | 0, _ => []
  | _, 0 => []
  | fuel + 1, n + 1 => (n + 1) % 10 :: natDigitsRevAux fuel ((n + 1) / 10)

/-- Little-endian base-10 digits of `n` (empty for `0`). -/
def natDigitsRev (n : ℕ) : List ℕ := natDigitsRevAux n n

/-- Value of a little-endian digit list. -/
def ofDigitsLE : List ℕ → ℕ
  | [] => 0
  | d :: rest => d + 10 * ofDigitsLE rest

/-- Value of a big-endian digit list. -/
def ofDigitsBE : List ℕ → ℕ
  | [] => 0
  | d :: rest => d * 10 ^ rest.length + ofDigitsBE rest

/-- Value, in `[0, 1)`, of a big-endian list of fractional digits
(`[d₁, d₂, …]` denotes `Σ dᵢ · 10⁻ⁱ`). -/
def fracValD : List ℕ → ℚ
  | [] => 0
  | d :: rest => ((d : ℚ) + fracValD rest) / 10

/-- Decimal rendering of a natural number, big-endian, `"0"` for zero. -/
def natToChars (n : ℕ) : List Char :=
  if n = 0 then ['0'] else (natDigitsRev n).reverse.map digitToChar

/-- The `p` fractional digits of `f < 10^p`, big-endian, zero-padded on
the left to exactly `p` characters. -/
def fracChars (p : ℕ) (f : ℕ) : List Char :=
  (natDigitsRev f ++ List.replicate (p - (natDigitsRev f).length) 0).reverse.map digitToChar

/-- Rust's `str::trim_end_matches("0")`: remove every trailing `'0'`
character. -/
def trimZeros (l : List Char) : List Char :=
  (l.reverse.dropWhile (fun c => c == '0')).reverse

/-- `trimZeros` at the level of digit values: remove trailing `0`
digits. -/
def trimD (l : List ℕ) : List ℕ :=
  (l.reverse.dropWhile (fun d => d == 0)).reverse

/-- Decode a list of characters as decimal digits; `none` if any
character is not a digit. -/
def parseDigitsD : List Char → Option (List ℕ)
  | [] => some []
  | c :: rest =>
    match charToDigit c, parseDigitsD rest with
    | some d, some ds => some (d :: ds)
    | _, _ => none

/-- Parse a non-empty big-endian digit string as a natural number. -/
def parseNatChars (l : List Char) : Option ℕ :=
  if l.isEmpty then none else (parseDigitsD l).map ofDigitsBE

/-- Parse an unsigned decimal literal, either `digits` or
`digits.fracdigits` (the fractional digit run may be empty, as in
`"0."`). -/
def parseUnsignedChars (l : List Char) : Option ℚ :=
  match l.dropWhile (fun c => c != '.') with
  | [] => (parseNatChars (l.takeWhile (fun c => c != '.'))).map (fun n => (n : ℚ))
  | _ :: fracPart =>
    match parseNatChars (l.takeWhile (fun c => c != '.')), parseDigitsD fracPart with
    | some i, some ds => some ((i : ℚ) + fracValD ds)
    | _, _ => none

/-- Parse a decimal literal with an optional leading minus sign. -/
def parseDecChars (l : List Char) : Option ℚ :=
  match l with
  | [] => none
  | c :: rest =>
    if c = '-' then (parseUnsignedChars rest).map (fun q => -q)
    else parseUnsignedChars (c :: rest)

/-- `x · 10^p` rounded to the nearest integer, ties to even — the
rounding Rust's fixed-precision float formatting applies to the exact
value of the float.  Computed on numerator and denominator by integer
arithmetic (`⌊x·10^p⌋ = fdiv (x.num·10^p) x.den`, and the fractional
remainder `r` of `x·10^p` satisfies `r2 = 2·x.den·r`), so that it
reduces in the kernel and concrete renderings evaluate by `decide`;
`scaledRound_spec` gives its defining property. -/
def scaledRound (p : ℕ) (x : ℚ) : ℤ :=
  let a := x.num * 10 ^ p
  let b := (x.den : ℤ)
  let f := Int.fdiv a b
  let r2 := 2 * (a - f * b)
  if r2 < b then f
  else if b < r2 then f + 1
  else if f % 2 = 0 then f else f + 1

/-- `format!("{:.p$}", x)` on a finite float of exact rational value `x`:
sign, then the decimal digits of the magnitude rounded to `p` fractional
digits, with the fractional part zero-padded to exactly `p` digits. -/
def fixedChars (p : ℕ) (x : ℚ) : List Char :=
  let mag : ℚ := if x < 0 then -x else x
  let m : ℕ := (scaledRound p mag).toNat
  (if x < 0 then ['-'] else []) ++ natToChars (m / 10 ^ p) ++ '.' :: fracChars p (m % 10 ^ p)

/-- An `f32`/`f64` value: a finite value (embedded as its exact rational
value) or one of the non-finite values. -/
inductive FloatVal where
  | finite (q : ℚ)
  | nan
  | posInf
  | negInf
deriving DecidableEq

/-- `format!("{:.p$}", v)` over all float values: Rust renders NaN as
`"NaN"` and the infinities as `"inf"`/`"-inf"` regardless of the
requested precision. -/
def formatFixed (p : ℕ) : FloatVal → List Char
  | .finite q => fixedChars p q
  | .nan => ['N', 'a', 'N']
  | .posInf => ['i', 'n', 'f']
  | .negInf => ['-', 'i', 'n', 'f']

/-- `<f32 as ToWgslFloat>::to_float_string` (src/lib.rs:114-119):
`format!("{:.6}", self)` then `trim_end_matches("0")`. -/
def to_float_string_f32 (v : FloatVal) : String :=
  ⟨trimZeros (formatFixed 6 v)⟩

/-- `<f64 as ToWgslFloat>::to_float_string` (src/lib.rs:121-126):
`format!("{:.15}", self)` then `trim_end_matches("0")`. -/
def to_float_string_f64 (v : FloatVal) : String :=
  ⟨trimZeros (formatFixed 15 v)⟩

/-- Bevy `Handle<EffectAsset>` (external collaborator), modelled as an
opaque asset identifier. -/
structure Handle where
  id : ℕ
deriving DecidableEq

/-- Modelled from the spec: `EffectCacheId` is defined in `src/render.rs`,
which is not among the provided sources; the spec describes it as "an
opaque token identifying an allocated cache slot; carries a distinguished
INVALID sentinel value distinct from any valid allocation". -/
inductive EffectCacheId where
  | INVALID
  | valid (slot : ℕ)
deriving DecidableEq

/-- Modelled from the spec: the `Value` distribution of `src/spawn.rs`
(not among the provided sources): "either a single fixed scalar, or a
half-open/closed numeric range from which a value is drawn uniformly". -/
inductive Value where
  | single (x : ℚ)
  | uniform (lo hi : ℚ)
deriving DecidableEq

/-- Modelled from the spec: `SpawnMode` of `src/spawn.rs` (not among the
provided sources): "fire a fixed/distributed count once; emit
continuously at a distributed per-second rate; emit a distributed count
repeatedly at a distributed period". -/
inductive SpawnMode where
  | once (count : Value)
  | rate (r : Value)
  | burst (count : Value) (period : Value)
deriving DecidableEq

/-- Modelled from the spec: `Spawner` of `src/spawn.rs` (not among the
provided sources): "mode …, a Value Distribution parameterizing the
mode, and internal accumulation state (fractional leftover count,
elapsed time since last burst, whether the one-shot has already
fired)". -/
structure Spawner where
  mode : SpawnMode
  remainder : ℚ
  time : ℚ
  fired : Bool
deriving DecidableEq

/-- Rust's derived `Clone` on a plain data struct: a field-wise copy,
i.e. the identity on the value. -/
def Spawner.clone (s : Spawner) : Spawner := s

/-- The `ParticleEffect` component (src/lib.rs:136-143). -/
structure ParticleEffect where
  handle : Handle
  effect : EffectCacheId
  spawner : Option Spawner
deriving DecidableEq

/-- `ParticleEffect::new` (src/lib.rs:147-153). -/
def ParticleEffect.new (handle : Handle) : ParticleEffect :=
  { handle := handle, effect := EffectCacheId.INVALID, spawner := none }

/-- `ParticleEffect::spawner` (src/lib.rs:159-164), with the `&mut self`
state passed explicitly.  The Rust method returns `&mut Spawner`, a
reference into `self.spawner`; here the result is the updated instance
paired with the value that reference denotes.  The `unwrap()` is
modelled by the `Option`: `none` is the panic case. -/
def ParticleEffect.spawnerMethod (pe : ParticleEffect) (s : Spawner) :
    Option (ParticleEffect × Spawner) :=
  let pe' := if pe.spawner.isNone then { pe with spawner := some s.clone } else pe
  match pe'.spawner with
  | some sp => some (pe', sp)
  | none => none

/-! ## Basic lemmas -/

theorem dropWhile_append_cons {α : Type} (q : α → Bool) (X Y : List α) (c : α)
    (hc : q c = false) :
    (X ++ c :: Y).dropWhile q = X.dropWhile q ++ c :: Y := by
  induction X with
  | nil => simp [List.dropWhile_cons, hc]
  | cons x X ih =>
    by_cases hx : q x
    · simpa [List.dropWhile_cons, hx] using ih
    · simp [List.dropWhile_cons, hx]

theorem takeWhile_append_cons {α : Type} (q : α → Bool) (X Y : List α) (c : α)
    (hX : ∀ x ∈ X, q x = true) (hc : q c = false) :
    (X ++ c :: Y).takeWhile q = X := by
  induction X with
  | nil => simp [List.takeWhile_cons, hc]
  | cons x X ih =>
    have hx : q x = true := hX x (by simp)
    simp only [List.cons_append, List.takeWhile_cons, hx, if_true]
    rw [ih (fun y hy => hX y (by simp [hy]))]

theorem dropWhile_append_cons_of_all {α : Type} (q : α → Bool) (X Y : List α) (c : α)
    (hX : ∀ x ∈ X, q x = true) (hc : q c = false) :
    (X ++ c :: Y).dropWhile q = c :: Y := by
  rw [dropWhile_append_cons q X Y c hc, List.dropWhile_eq_nil_iff.mpr hX, List.nil_append]

theorem trimZeros_append_dot (A F : List Char) :
    trimZeros (A ++ '.' :: F) = A ++ '.' :: trimZeros F := by
  have h1 : (A ++ '.' :: F).reverse = F.reverse ++ '.' :: A.reverse := by
    simp
  unfold trimZeros
  rw [h1, dropWhile_append_cons _ _ _ _ (by decide)]
  simp

theorem head?_dropWhile {α : Type} (q : α → Bool) (l : List α) (c : α)
    (h : (l.dropWhile q).head? = some c) : q c = false := by
  induction l with
  | nil => simp at h
  | cons x l ih =>
    by_cases hx : q x
    · rw [List.dropWhile_cons, if_pos hx] at h; exact ih h
    · rw [List.dropWhile_cons, if_neg hx] at h
      simp only [List.head?_cons, Option.some.injEq] at h
      rw [← h]
      exact Bool.of_not_eq_true hx

theorem trimZeros_getLast_ne_zero (l : List Char) (c : Char)
    (h : (trimZeros l).getLast? = some c) : c ≠ '0' := by
  unfold trimZeros at h
  rw [List.getLast?_reverse] at h
  have h2 := head?_dropWhile _ _ _ h
  simp only [beq_eq_false_iff_ne, ne_eq] at h2
  exact h2

theorem ofDigitsLE_natDigitsRevAux (fuel : ℕ) :
    ∀ n : ℕ, n ≤ fuel → ofDigitsLE (natDigitsRevAux fuel n) = n := by
  induction fuel with
  | zero =>
    intro n h
    interval_cases n
    rfl
  | succ fuel ih =>
    intro n h
    cases n with
    | zero => rfl
    | succ m =>
      have hdiv : (m + 1) / 10 ≤ fuel := by
        have := Nat.div_lt_self (Nat.succ_pos m) (by norm_num : (1:ℕ) < 10)
        omega
      simp only [natDigitsRevAux, ofDigitsLE, ih _ hdiv]
      exact Nat.mod_add_div (m + 1) 10

theorem natDigitsRevAux_lt (fuel : ℕ) :
    ∀ n : ℕ, ∀ d ∈ natDigitsRevAux fuel n, d < 10 := by
  induction fuel with
  | zero => intro n d hd; simp [natDigitsRevAux] at hd
  | succ fuel ih =>
    intro n d hd
    cases n with
    | zero => simp [natDigitsRevAux] at hd
    | succ m =>
      simp only [natDigitsRevAux, List.mem_cons] at hd
      rcases hd with rfl | hd
      · exact Nat.mod_lt _ (by norm_num)
      · exact ih _ d hd

theorem natDigitsRevAux_length (fuel : ℕ) :
    ∀ n p : ℕ, n < 10 ^ p → (natDigitsRevAux fuel n).length ≤ p := by
  induction fuel with
  | zero => intro n p _; simp [natDigitsRevAux]
  | succ fuel ih =>
    intro n p h
    cases n with
    | zero => simp [natDigitsRevAux]
    | succ m =>
      cases p with
      | zero => simp at h
      | succ q =>
        have hq : (m + 1) / 10 < 10 ^ q := by
          rw [Nat.div_lt_iff_lt_mul (by norm_num : (0:ℕ) < 10)]
          calc m + 1 < 10 ^ (q + 1) := h
            _ = 10 ^ q * 10 := by ring
        have := ih ((m + 1) / 10) q hq
        simp only [natDigitsRevAux, List.length_cons]
        omega

theorem natDigitsRevAux_ne_nil (fuel n : ℕ) (hf : 0 < fuel) (hn : 0 < n) :
    natDigitsRevAux fuel n ≠ [] := by
  cases fuel with
  | zero => omega
  | succ f =>
    cases n with
    | zero => omega
    | succ m => simp [natDigitsRevAux]

theorem ofDigitsBE_concat (A : List ℕ) (d : ℕ) :
    ofDigitsBE (A ++ [d]) = 10 * ofDigitsBE A + d := by
  induction A with
  | nil => simp [ofDigitsBE]
  | cons a A ih =>
    have hlen : (A ++ [d]).length = A.length + 1 := by simp
    simp only [List.cons_append, ofDigitsBE, List.append_eq, ih, hlen]
    ring

theorem ofDigitsBE_reverse (L : List ℕ) : ofDigitsBE L.reverse = ofDigitsLE L := by
  induction L with
  | nil => rfl
  | cons d L ih =>
    simp only [List.reverse_cons, ofDigitsBE_concat, ih, ofDigitsLE]
    ring

theorem ofDigitsLE_replicate_zero (k : ℕ) : ofDigitsLE (List.replicate k 0) = 0 := by
  induction k with
  | zero => rfl
  | succ k ih => simp [List.replicate_succ, ofDigitsLE, ih]

theorem ofDigitsLE_append_zeros (L : List ℕ) (k : ℕ) :
    ofDigitsLE (L ++ List.replicate k 0) = ofDigitsLE L := by
  induction L with
  | nil => simpa using ofDigitsLE_replicate_zero k
  | cons d L ih => simp [ofDigitsLE, ih]

theorem fracValD_replicate_zero (k : ℕ) : fracValD (List.replicate k 0) = 0 := by
  induction k with
  | zero => rfl
  | succ k ih => simp [List.replicate_succ, fracValD, ih]

theorem fracValD_append_zeros (L : List ℕ) (k : ℕ) :
    fracValD (L ++ List.replicate k 0) = fracValD L := by
  induction L with
  | nil => simpa using fracValD_replicate_zero k
  | cons d L ih => simp [fracValD, ih]

theorem fracValD_eq_div (D : List ℕ) :
    fracValD D = (ofDigitsBE D : ℚ) / 10 ^ D.length := by
  induction D with
  | nil => simp [fracValD, ofDigitsBE]
  | cons d D ih =>
    have hP : (10 : ℚ) ^ D.length ≠ 0 := by positivity
    simp only [fracValD, ih, ofDigitsBE, List.length_cons, pow_succ]
    push_cast
    rw [add_div' _ _ _ hP, div_div]

theorem charToDigit_digitToChar : ∀ d : ℕ, d < 10 → charToDigit (digitToChar d) = some d := by
  decide

theorem digitToChar_beq_zero : ∀ d : ℕ, d < 10 → ((digitToChar d == '0') = (d == 0)) := by
  decide

theorem digitToChar_ne_dash : ∀ d : ℕ, d < 10 → digitToChar d ≠ '-' := by
  decide

theorem digitToChar_bne_dot : ∀ d : ℕ, d < 10 → (digitToChar d != '.') = true := by
  decide

theorem parseDigitsD_map (D : List ℕ) (h : ∀ d ∈ D, d < 10) :
    parseDigitsD (D.map digitToChar) = some D := by
  induction D with
  | nil => rfl
  | cons d D ih =>
    simp only [List.map_cons, parseDigitsD,
      charToDigit_digitToChar d (h d (by simp)),
      ih (fun e he => h e (by simp [he]))]

theorem natToChars_mem (n : ℕ) : ∀ c ∈ natToChars n, ∃ d, d < 10 ∧ c = digitToChar d := by
  intro c hc
  unfold natToChars at hc
  by_cases h : n = 0
  · rw [if_pos h] at hc
    simp only [List.mem_singleton] at hc
    exact ⟨0, by norm_num, hc⟩
  · rw [if_neg h] at hc
    simp only [List.mem_map, List.mem_reverse] at hc
    obtain ⟨d, hd, rfl⟩ := hc
    exact ⟨d, natDigitsRevAux_lt n n d hd, rfl⟩

theorem natToChars_ne_nil (n : ℕ) : natToChars n ≠ [] := by
  unfold natToChars
  by_cases h : n = 0
  · simp [h]
  · rw [if_neg h]
    intro hnil
    have hlen := congrArg List.length hnil
    simp only [List.length_map, List.length_reverse, List.length_nil,
      List.length_eq_zero, natDigitsRev] at hlen
    exact natDigitsRevAux_ne_nil n n (by omega) (by omega) hlen

theorem ofDigitsLE_natDigitsRev (n : ℕ) : ofDigitsLE (natDigitsRev n) = n :=
  ofDigitsLE_natDigitsRevAux n n le_rfl

theorem natDigitsRev_lt (n : ℕ) : ∀ d ∈ natDigitsRev n, d < 10 :=
  natDigitsRevAux_lt n n

theorem natDigitsRev_length (n p : ℕ) (h : n < 10 ^ p) : (natDigitsRev n).length ≤ p :=
  natDigitsRevAux_length n n p h

theorem parseNatChars_natToChars (n : ℕ) : parseNatChars (natToChars n) = some n := by
  by_cases h : n = 0
  · subst h; decide
  · have hchars : natToChars n = (natDigitsRev n).reverse.map digitToChar := by
      unfold natToChars; rw [if_neg h]
    have hne : (natDigitsRev n).reverse.map digitToChar ≠ [] := by
      rw [← hchars]; exact natToChars_ne_nil n
    rw [hchars]
    unfold parseNatChars
    rw [if_neg (by simpa [List.isEmpty_iff] using hne)]
    rw [parseDigitsD_map _ (fun d hd => natDigitsRev_lt n d (List.mem_reverse.mp hd))]
    rw [Option.map_some', ofDigitsBE_reverse, ofDigitsLE_natDigitsRev]

theorem parseUnsignedChars_split (I G : List Char) (i : ℕ) (ds : List ℕ)
    (hI : ∀ c ∈ I, (c != '.') = true)
    (hi : parseNatChars I = some i) (hds : parseDigitsD G = some ds) :
    parseUnsignedChars (I ++ '.' :: G) = some ((i : ℚ) + fracValD ds) := by
  unfold parseUnsignedChars
  rw [takeWhile_append_cons _ _ _ _ hI (by decide),
      dropWhile_append_cons_of_all _ _ _ _ hI (by decide)]
  simp [hi, hds]

theorem dropWhile_zero_map (D : List ℕ) (h : ∀ d ∈ D, d < 10) :
    (D.map digitToChar).dropWhile (fun c => c == '0') =
      (D.dropWhile (fun d => d == 0)).map digitToChar := by
  induction D with
  | nil => rfl
  | cons d D ih =>
    have hd := h d (by simp)
    have heq := digitToChar_beq_zero d hd
    by_cases h0 : d = 0
    · subst h0
      simp only [List.map_cons, List.dropWhile_cons, heq]
      simpa using ih (fun e he => h e (by simp [he]))
    · have h0' : (d == 0) = false := beq_eq_false_iff_ne.mpr h0
      simp [List.dropWhile_cons, heq, h0']

theorem trimZeros_map (D : List ℕ) (h : ∀ d ∈ D, d < 10) :
    trimZeros (D.map digitToChar) = (trimD D).map digitToChar := by
  unfold trimZeros trimD
  rw [← List.map_reverse, dropWhile_zero_map _ (fun d hd => h d (List.mem_reverse.mp hd)),
      List.map_reverse]

theorem trimD_exists (D : List ℕ) : ∃ k, D = trimD D ++ List.replicate k 0 := by
  refine ⟨(D.reverse.takeWhile (fun d => d == 0)).length, ?_⟩
  have split : D.reverse.takeWhile (fun d => d == 0) ++ D.reverse.dropWhile (fun d => d == 0)
      = D.reverse := List.takeWhile_append_dropWhile _ _
  have hT : (D.reverse.takeWhile (fun d => d == 0)).reverse
      = List.replicate (D.reverse.takeWhile (fun d => d == 0)).length 0 := by
    rw [List.eq_replicate_iff]
    refine ⟨by simp, ?_⟩
    intro b hb
    have hb' := List.mem_reverse.mp hb
    have := List.mem_takeWhile_imp hb'
    simpa using this
  calc D = D.reverse.reverse := (List.reverse_reverse D).symm
    _ = (D.reverse.takeWhile (fun d => d == 0) ++ D.reverse.dropWhile (fun d => d == 0)).reverse := by
        rw [split]
    _ = trimD D ++ List.replicate (D.reverse.takeWhile (fun d => d == 0)).length 0 := by
        rw [List.reverse_append, hT]; rfl

theorem mem_trimD (D : List ℕ) (d : ℕ) (h : d ∈ trimD D) : d ∈ D := by
  obtain ⟨k, hk⟩ := trimD_exists D
  rw [hk]
  exact List.mem_append_left _ h

theorem fracValD_trimD (D : List ℕ) : fracValD (trimD D) = fracValD D := by
  obtain ⟨k, hk⟩ := trimD_exists D
  conv_rhs => rw [hk]
  rw [fracValD_append_zeros]

theorem fracChars_spec (p f : ℕ) (hf : f < 10 ^ p) :
    ∃ D : List ℕ, fracChars p f = D.map digitToChar ∧ (∀ d ∈ D, d < 10) ∧
      D.length = p ∧ fracValD D = (f : ℚ) / 10 ^ p := by
  have hlen : (natDigitsRev f).length ≤ p := natDigitsRev_length f p hf
  refine ⟨(natDigitsRev f ++ List.replicate (p - (natDigitsRev f).length) 0).reverse,
    ?_, ?_, ?_, ?_⟩
  · rfl
  · intro d hd
    rw [List.mem_reverse] at hd
    rcases List.mem_append.mp hd with h1 | h2
    · exact natDigitsRev_lt f d h1
    · have := List.eq_of_mem_replicate h2
      omega
  · simp only [List.length_reverse, List.length_append, List.length_replicate]
    omega
  · have hlenL : (natDigitsRev f ++ List.replicate (p - (natDigitsRev f).length) 0).reverse.length
        = p := by
      simp only [List.length_reverse, List.length_append, List.length_replicate]
      omega
    rw [fracValD_eq_div, ofDigitsBE_reverse, hlenL, ofDigitsLE_append_zeros,
      ofDigitsLE_natDigitsRev]

theorem parseUnsigned_trim_core (p m : ℕ) :
    parseUnsignedChars (natToChars (m / 10 ^ p) ++ '.' :: trimZeros (fracChars p (m % 10 ^ p)))
      = some ((m : ℚ) / 10 ^ p) := by
  have hmod : m % 10 ^ p < 10 ^ p := Nat.mod_lt m (by positivity)
  obtain ⟨D, hD, hDlt, hDlen, hDval⟩ := fracChars_spec p (m % 10 ^ p) hmod
  have hG : parseDigitsD (trimZeros (fracChars p (m % 10 ^ p))) = some (trimD D) := by
    rw [hD, trimZeros_map D hDlt]
    exact parseDigitsD_map _ (fun e he => hDlt e (mem_trimD D e he))
  have hIdot : ∀ a ∈ natToChars (m / 10 ^ p), (a != '.') = true := by
    intro a ha
    obtain ⟨e, he10, hae⟩ := natToChars_mem _ a ha
    rw [hae]
    exact digitToChar_bne_dot e he10
  rw [parseUnsignedChars_split (natToChars (m / 10 ^ p))
    (trimZeros (fracChars p (m % 10 ^ p))) (m / 10 ^ p) (trimD D)
    hIdot (parseNatChars_natToChars _) hG]
  rw [fracValD_trimD, hDval]
  have h10 : ((10 : ℚ) ^ p) ≠ 0 := by positivity
  have key : ((m / 10 ^ p) * 10 ^ p + m % 10 ^ p : ℕ) = m := Nat.div_add_mod' m (10 ^ p)
  field_simp
  exact_mod_cast key

theorem parseDec_trim_core (p m : ℕ) :
    parseDecChars (natToChars (m / 10 ^ p) ++ '.' :: trimZeros (fracChars p (m % 10 ^ p)))
      = some ((m : ℚ) / 10 ^ p) := by
  obtain ⟨c, cs, hI⟩ : ∃ c cs, natToChars (m / 10 ^ p) = c :: cs := by
    cases hh : natToChars (m / 10 ^ p) with
    | nil => exact absurd hh (natToChars_ne_nil _)
    | cons c cs => exact ⟨c, cs, rfl⟩
  have hc : c ∈ natToChars (m / 10 ^ p) := by rw [hI]; simp
  obtain ⟨d, hd10, hcd⟩ := natToChars_mem _ c hc
  have hparse : parseDecChars (natToChars (m / 10 ^ p) ++ '.' :: trimZeros (fracChars p (m % 10 ^ p)))
      = parseUnsignedChars (natToChars (m / 10 ^ p) ++ '.' :: trimZeros (fracChars p (m % 10 ^ p))) := by
    rw [hI]
    simp only [List.cons_append, parseDecChars]
    rw [if_neg (by rw [hcd]; exact digitToChar_ne_dash d hd10)]
  rw [hparse, parseUnsigned_trim_core]

theorem parseDec_trim_core_neg (p m : ℕ) :
    parseDecChars ('-' :: (natToChars (m / 10 ^ p) ++ '.' :: trimZeros (fracChars p (m % 10 ^ p))))
      = some (-((m : ℚ) / 10 ^ p)) := by
  simp only [parseDecChars, if_pos]
  rw [parseUnsigned_trim_core, Option.map_some']

theorem scaledRound_cast_div (p : ℕ) (x : ℚ) :
    ((x.num * 10 ^ p : ℤ) : ℚ) / ((x.den : ℕ) : ℚ) = x * 10 ^ p := by
  push_cast
  rw [mul_div_right_comm, Rat.num_div_den]

theorem scaledRound_fdiv_floor (p : ℕ) (x : ℚ) :
    Int.fdiv (x.num * 10 ^ p) (x.den : ℤ) = ⌊x * 10 ^ p⌋ := by
  rw [Int.fdiv_eq_ediv _ (Int.natCast_nonneg x.den),
    ← Rat.floor_intCast_div_natCast (x.num * 10 ^ p) x.den, scaledRound_cast_div]

theorem scaledRound_key (p : ℕ) (x : ℚ) :
    ((2 * (x.num * 10 ^ p - Int.fdiv (x.num * 10 ^ p) (x.den : ℤ) * (x.den : ℤ)) : ℤ) : ℚ)
      = 2 * (x.den : ℚ) * (x * 10 ^ p - (⌊x * 10 ^ p⌋ : ℚ)) := by
  have hden : ((x.den : ℕ) : ℚ) ≠ 0 := Nat.cast_ne_zero.mpr x.den_nz
  have hxy : (x.den : ℚ) * (x * 10 ^ p) = (x.num : ℚ) * 10 ^ p := by
    rw [← scaledRound_cast_div p x]
    push_cast
    field_simp
  push_cast [scaledRound_fdiv_floor p x]
  linear_combination (-2 : ℚ) * hxy

theorem scaledRound_spec (p : ℕ) (x : ℚ) :
    |x * 10 ^ p - (scaledRound p x : ℚ)| ≤ 1 / 2 := by
  have hdpos : (0 : ℚ) < (x.den : ℚ) := by exact_mod_cast x.den_pos
  have hfr0 : (0 : ℚ) ≤ x * 10 ^ p - (⌊x * 10 ^ p⌋ : ℚ) := by
    have := Int.floor_le (x * 10 ^ p); linarith
  have hfr1 : x * 10 ^ p - (⌊x * 10 ^ p⌋ : ℚ) < 1 := by
    have := Int.lt_floor_add_one (x * 10 ^ p); linarith
  have hkey := scaledRound_key p x
  simp only [scaledRound]
  split_ifs with h1 h2 h3
  · have h1q : ((2 * (x.num * 10 ^ p - Int.fdiv (x.num * 10 ^ p) (x.den : ℤ) * (x.den : ℤ)) : ℤ) : ℚ)
        < ((x.den : ℤ) : ℚ) := by exact_mod_cast h1
    rw [hkey] at h1q
    push_cast at h1q ⊢
    rw [scaledRound_fdiv_floor p x]
    rw [abs_of_nonneg hfr0]
    nlinarith
  · have h2q : (((x.den : ℤ)) : ℚ)
        < ((2 * (x.num * 10 ^ p - Int.fdiv (x.num * 10 ^ p) (x.den : ℤ) * (x.den : ℤ)) : ℤ) : ℚ) := by
      exact_mod_cast h2
    rw [hkey] at h2q
    push_cast at h2q ⊢
    rw [scaledRound_fdiv_floor p x]
    rw [abs_of_nonpos (by linarith)]
    nlinarith
  · have heq : ((2 * (x.num * 10 ^ p - Int.fdiv (x.num * 10 ^ p) (x.den : ℤ) * (x.den : ℤ)) : ℤ) : ℚ)
        = ((x.den : ℤ) : ℚ) := by exact_mod_cast le_antisymm (not_lt.mp h2) (not_lt.mp h1)
    rw [hkey] at heq
    push_cast at heq ⊢
    rw [scaledRound_fdiv_floor p x]
    rw [abs_of_nonneg hfr0]
    nlinarith
  · have heq : ((2 * (x.num * 10 ^ p - Int.fdiv (x.num * 10 ^ p) (x.den : ℤ) * (x.den : ℤ)) : ℤ) : ℚ)
        = ((x.den : ℤ) : ℚ) := by exact_mod_cast le_antisymm (not_lt.mp h2) (not_lt.mp h1)
    rw [hkey] at heq
    push_cast at heq ⊢
    rw [scaledRound_fdiv_floor p x]
    rw [abs_of_nonpos (by linarith)]
    nlinarith

theorem scaledRound_nonneg (p : ℕ) (x : ℚ) (hx : 0 ≤ x) : 0 ≤ scaledRound p x := by
  have ha : 0 ≤ x.num * 10 ^ p :=
    mul_nonneg (Rat.num_nonneg.mpr hx) (by positivity)
  have hf : 0 ≤ Int.fdiv (x.num * 10 ^ p) (x.den : ℤ) :=
    Int.fdiv_nonneg ha (Int.natCast_nonneg _)
  simp only [scaledRound]
  split_ifs <;> omega

theorem fixedChars_def (p : ℕ) (x : ℚ) :
    fixedChars p x =
      (if x < 0 then ['-'] else []) ++
        natToChars ((scaledRound p (if x < 0 then -x else x)).toNat / 10 ^ p) ++
          '.' :: fracChars p ((scaledRound p (if x < 0 then -x else x)).toNat % 10 ^ p) := rfl

theorem trim_fixedChars (p : ℕ) (x : ℚ) :
    trimZeros (fixedChars p x) =
      ((if x < 0 then ['-'] else []) ++
        natToChars ((scaledRound p (if x < 0 then -x else x)).toNat / 10 ^ p)) ++
          '.' :: trimZeros (fracChars p ((scaledRound p (if x < 0 then -x else x)).toNat % 10 ^ p)) := by
  rw [fixedChars_def]
  exact trimZeros_append_dot _ _

theorem toFloatString_roundtrip (p : ℕ) (x : ℚ) :
    ∃ q : ℚ, parseDecChars (trimZeros (fixedChars p x)) = some q ∧
      |x - q| ≤ 1 / (2 * 10 ^ p) := by
  have h10 : (0 : ℚ) < 10 ^ p := by positivity
  by_cases hneg : x < 0
  · have hmag : (0 : ℚ) ≤ -x := by linarith
    have hnn : 0 ≤ scaledRound p (-x) := scaledRound_nonneg p (-x) hmag
    have hcast : (((scaledRound p (-x)).toNat : ℕ) : ℚ) = ((scaledRound p (-x)) : ℚ) := by
      exact_mod_cast Int.toNat_of_nonneg hnn
    refine ⟨-(((scaledRound p (-x)).toNat : ℚ) / 10 ^ p), ?_, ?_⟩
    · rw [trim_fixedChars]
      simp only [if_pos hneg]
      have hshape : (['-'] ++ natToChars ((scaledRound p (-x)).toNat / 10 ^ p)) ++
          '.' :: trimZeros (fracChars p ((scaledRound p (-x)).toNat % 10 ^ p))
          = '-' :: (natToChars ((scaledRound p (-x)).toNat / 10 ^ p) ++
            '.' :: trimZeros (fracChars p ((scaledRound p (-x)).toNat % 10 ^ p))) := by simp
      rw [hshape, parseDec_trim_core_neg]
    · rw [hcast]
      have hspec := scaledRound_spec p (-x)
      have hshape : x - -(((scaledRound p (-x)) : ℚ) / 10 ^ p)
          = -(((-x) * 10 ^ p - ((scaledRound p (-x)) : ℚ)) / 10 ^ p) := by
        field_simp
        ring
      rw [hshape, abs_neg, abs_div, abs_of_pos h10]
      calc |(-x) * 10 ^ p - ((scaledRound p (-x)) : ℚ)| / 10 ^ p
          ≤ (1 / 2) / 10 ^ p := by gcongr
        _ = 1 / (2 * 10 ^ p) := by ring
  · have hx : (0 : ℚ) ≤ x := not_lt.mp hneg
    have hnn : 0 ≤ scaledRound p x := scaledRound_nonneg p x hx
    have hcast : (((scaledRound p x).toNat : ℕ) : ℚ) = ((scaledRound p x) : ℚ) := by
      exact_mod_cast Int.toNat_of_nonneg hnn
    refine ⟨((scaledRound p x).toNat : ℚ) / 10 ^ p, ?_, ?_⟩
    · rw [trim_fixedChars]
      simp only [if_neg hneg, List.nil_append]
      exact parseDec_trim_core p ((scaledRound p x).toNat)
    · rw [hcast]
      have hspec := scaledRound_spec p x
      have hshape : x - ((scaledRound p x) : ℚ) / 10 ^ p
          = (x * 10 ^ p - ((scaledRound p x) : ℚ)) / 10 ^ p := by
        field_simp
      rw [hshape, abs_div, abs_of_pos h10]
      calc |x * 10 ^ p - ((scaledRound p x) : ℚ)| / 10 ^ p
          ≤ (1 / 2) / 10 ^ p := by gcongr
        _ = 1 / (2 * 10 ^ p) := by ring

theorem dot_mem_trim_fixedChars (p : ℕ) (x : ℚ) : '.' ∈ trimZeros (fixedChars p x) := by
  rw [trim_fixedChars]
  simp

theorem trim_fixedChars_ne_nil (p : ℕ) (x : ℚ) : trimZeros (fixedChars p x) ≠ [] := by
  intro hnil
  have hlen := congrArg List.length hnil
  rw [trim_fixedChars] at hlen
  simp [List.length_append] at hlen

theorem fracChars_zero (p : ℕ) : fracChars p 0 = List.replicate p '0' := by
  unfold fracChars
  have h0 : natDigitsRev 0 = [] := rfl
  rw [h0]
  simp [List.map_replicate, digitToChar]

theorem trimZeros_replicate_zero (p : ℕ) : trimZeros (List.replicate p '0') = [] := by
  unfold trimZeros
  rw [List.reverse_replicate, List.dropWhile_eq_nil_iff.mpr ?_, List.reverse_nil]
  intro c hc
  rw [List.eq_of_mem_replicate hc]
  rfl

theorem trim_fixedChars_ends_dot (p : ℕ) (x : ℚ)
    (h : (scaledRound p (if x < 0 then -x else x)).toNat % 10 ^ p = 0) :
    (trimZeros (fixedChars p x)).getLast? = some '.' := by
  rw [trim_fixedChars, h, fracChars_zero, trimZeros_replicate_zero]
  exact List.getLast?_concat _

/-! ## Claim theorems -/

/-- C1: for every finite `f32`/`f64` input, `to_float_string` returns text
containing the fractional separator `'.'`; formatting `0.0` yields `"0."`
and formatting `1.0` yields `"1."` — never bare integer text. -/
theorem C1_contains_fractional_separator :
    (∀ x : ℚ, '.' ∈ (to_float_string_f32 (FloatVal.finite x)).data ∧
      '.' ∈ (to_float_string_f64 (FloatVal.finite x)).data) ∧
    to_float_string_f32 (FloatVal.finite 0) = "0." ∧
    to_float_string_f64 (FloatVal.finite 0) = "0." ∧
    to_float_string_f32 (FloatVal.finite 1) = "1." ∧
    to_float_string_f64 (FloatVal.finite 1) = "1." := by
  refine ⟨fun x => ⟨?_, ?_⟩, by decide, by decide, by decide, by decide⟩
  · exact dot_mem_trim_fixedChars 6 x
  · exact dot_mem_trim_fixedChars 15 x

/-- C2: `ParticleEffect::new(h)` returns an instance with effect cache id
`EffectCacheId::INVALID`, no spawner override, and stored handle `h`. -/
theorem C2_new_initial_state :
    ∀ h : Handle, (ParticleEffect.new h).effect = EffectCacheId.INVALID ∧
      (ParticleEffect.new h).spawner = none ∧ (ParticleEffect.new h).handle = h :=
  fun _ => ⟨rfl, rfl, rfl⟩

/-- C3: when the override is absent, `ParticleEffect::spawner(&s)` stores
a clone of `s` as the override and returns (a mutable reference to) that
stored copy. -/
theorem C3_spawner_lazy_clone :
    ∀ (pe : ParticleEffect) (s : Spawner), pe.spawner = none →
      ParticleEffect.spawnerMethod pe s =
        some ({ pe with spawner := some (Spawner.clone s) }, Spawner.clone s) := by
  intro pe s h
  simp [ParticleEffect.spawnerMethod, h]

/-- C3 witness at a concrete instance. -/
theorem C3_spawner_lazy_clone_witness :
    ParticleEffect.spawnerMethod (ParticleEffect.new ⟨7⟩)
        ⟨SpawnMode.rate (Value.single 5), 0, 0, false⟩ =
      some ({ ParticleEffect.new ⟨7⟩ with
                spawner := some (Spawner.clone ⟨SpawnMode.rate (Value.single 5), 0, 0, false⟩) },
            Spawner.clone ⟨SpawnMode.rate (Value.single 5), 0, 0, false⟩) :=
  C3_spawner_lazy_clone (ParticleEffect.new ⟨7⟩)
    ⟨SpawnMode.rate (Value.single 5), 0, 0, false⟩ rfl

/-- C4: `spawner` is get-or-create: on an instance whose override exists
the call leaves the state unchanged and returns the existing override,
whatever the argument; in particular a second call (with any argument)
after a first call changes nothing. -/
theorem C4_spawner_get_or_create :
    (∀ (pe : ParticleEffect) (s sp : Spawner), pe.spawner = some sp →
      ParticleEffect.spawnerMethod pe s = some (pe, sp)) ∧
    (∀ (pe : ParticleEffect) (s₁ s₂ : Spawner) (pe₁ : ParticleEffect) (r₁ : Spawner),
      ParticleEffect.spawnerMethod pe s₁ = some (pe₁, r₁) →
      ParticleEffect.spawnerMethod pe₁ s₂ = some (pe₁, r₁)) := by
  constructor
  · intro pe s sp h
    simp [ParticleEffect.spawnerMethod, h]
  · intro pe s₁ s₂ pe₁ r₁ h
    have hsp : pe₁.spawner = some r₁ := by
      cases hc : pe.spawner with
      | none =>
        simp [ParticleEffect.spawnerMethod, hc] at h
        rw [← h.1, ← h.2]
      | some sp =>
        simp [ParticleEffect.spawnerMethod, hc] at h
        rw [← h.1, ← h.2, hc]
    simp [ParticleEffect.spawnerMethod, hsp]

/-- C4 witness: a first call on a fresh instance, then a second call with
a different argument returning the unchanged state. -/
theorem C4_spawner_get_or_create_witness :
    ParticleEffect.spawnerMethod
        ({ ParticleEffect.new ⟨3⟩ with
            spawner := some (Spawner.clone ⟨SpawnMode.rate (Value.single 5), 0, 0, false⟩) })
        ⟨SpawnMode.once (Value.single 9), 1, 2, true⟩ =
      some ({ ParticleEffect.new ⟨3⟩ with
                spawner := some (Spawner.clone ⟨SpawnMode.rate (Value.single 5), 0, 0, false⟩) },
            Spawner.clone ⟨SpawnMode.rate (Value.single 5), 0, 0, false⟩) :=
  C4_spawner_get_or_create.2 (ParticleEffect.new ⟨3⟩)
    ⟨SpawnMode.rate (Value.single 5), 0, 0, false⟩
    ⟨SpawnMode.once (Value.single 9), 1, 2, true⟩ _ _
    (C3_spawner_lazy_clone (ParticleEffect.new ⟨3⟩)
      ⟨SpawnMode.rate (Value.single 5), 0, 0, false⟩ rfl)

/-- C5: `spawner` only clones its argument (the passed spawner value is
unchanged — it is taken by shared reference and only `clone` is called
on it, which the embedding reflects as `Spawner.clone s = s`), and the
instance's `handle` and `effect` fields are unchanged; only the `spawner`
field may change, and only from `none` to a clone of the argument. -/
theorem C5_spawner_frame :
    ∀ (pe : ParticleEffect) (s : Spawner) (pe' : ParticleEffect) (r : Spawner),
      ParticleEffect.spawnerMethod pe s = some (pe', r) →
      Spawner.clone s = s ∧ pe'.handle = pe.handle ∧ pe'.effect = pe.effect ∧
        (pe'.spawner = pe.spawner ∨
          (pe.spawner = none ∧ pe'.spawner = some (Spawner.clone s))) := by
  intro pe s pe' r h
  cases hc : pe.spawner with
  | none =>
    simp [ParticleEffect.spawnerMethod, hc] at h
    refine ⟨rfl, ?_, ?_, Or.inr ⟨rfl, ?_⟩⟩ <;> rw [← h.1]
  | some sp =>
    simp [ParticleEffect.spawnerMethod, hc] at h
    refine ⟨rfl, ?_, ?_, Or.inl ?_⟩ <;> rw [← h.1]
    exact hc

/-- C5 witness at a concrete instance. -/
theorem C5_spawner_frame_witness :
    Spawner.clone ⟨SpawnMode.rate (Value.single 5), 0, 0, false⟩ =
        (⟨SpawnMode.rate (Value.single 5), 0, 0, false⟩ : Spawner) ∧
      ({ ParticleEffect.new ⟨7⟩ with
          spawner := some (Spawner.clone ⟨SpawnMode.rate (Value.single 5), 0, 0, false⟩) } :
            ParticleEffect).handle = (ParticleEffect.new ⟨7⟩).handle ∧
      ({ ParticleEffect.new ⟨7⟩ with
          spawner := some (Spawner.clone ⟨SpawnMode.rate (Value.single 5), 0, 0, false⟩) } :
            ParticleEffect).effect = (ParticleEffect.new ⟨7⟩).effect ∧
      (({ ParticleEffect.new ⟨7⟩ with
          spawner := some (Spawner.clone ⟨SpawnMode.rate (Value.single 5), 0, 0, false⟩) } :
            ParticleEffect).spawner = (ParticleEffect.new ⟨7⟩).spawner ∨
        ((ParticleEffect.new ⟨7⟩).spawner = none ∧
          ({ ParticleEffect.new ⟨7⟩ with
              spawner := some (Spawner.clone ⟨SpawnMode.rate (Value.single 5), 0, 0, false⟩) } :
                ParticleEffect).spawner =
            some (Spawner.clone ⟨SpawnMode.rate (Value.single 5), 0, 0, false⟩))) :=
  C5_spawner_frame (ParticleEffect.new ⟨7⟩) ⟨SpawnMode.rate (Value.single 5), 0, 0, false⟩ _ _
    (C3_spawner_lazy_clone (ParticleEffect.new ⟨7⟩)
      ⟨SpawnMode.rate (Value.single 5), 0, 0, false⟩ rfl)

/-- C10: the `unwrap()` in `ParticleEffect::spawner` never panics: after
the `is_none`-guarded assignment the `spawner` field is always `Some`, so
the method always returns a value. -/
theorem C10_spawner_never_panics :
    ∀ (pe : ParticleEffect) (s : Spawner),
      (ParticleEffect.spawnerMethod pe s).isSome = true := by
  intro pe s
  cases hc : pe.spawner with
  | none => simp [ParticleEffect.spawnerMethod, hc]
  | some sp => simp [ParticleEffect.spawnerMethod, hc]

/-- C6: for every finite input, `to_float_string` equals the
fixed-precision decimal rendering (6 fractional digits for `f32`, 15 for
`f64`) with all trailing `'0'` characters removed; consequently the
output never ends with the digit `'0'`, and the zero-trim never removes
the fractional separator: when every fractional digit is zero (the
rounded scaled magnitude is divisible by `10^p`) the output ends with
`'.'`. -/
theorem C6_trimmed_fixed_rendering :
    ∀ x : ℚ,
      ((to_float_string_f32 (FloatVal.finite x)).data = trimZeros (fixedChars 6 x) ∧
        (to_float_string_f64 (FloatVal.finite x)).data = trimZeros (fixedChars 15 x)) ∧
      (∀ c : Char, (to_float_string_f32 (FloatVal.finite x)).data.getLast? = some c → c ≠ '0') ∧
      (∀ c : Char, (to_float_string_f64 (FloatVal.finite x)).data.getLast? = some c → c ≠ '0') ∧
      ((scaledRound 6 (if x < 0 then -x else x)).toNat % 10 ^ 6 = 0 →
        (to_float_string_f32 (FloatVal.finite x)).data.getLast? = some '.') ∧
      ((scaledRound 15 (if x < 0 then -x else x)).toNat % 10 ^ 15 = 0 →
        (to_float_string_f64 (FloatVal.finite x)).data.getLast? = some '.') := by
  intro x
  refine ⟨⟨rfl, rfl⟩, ?_, ?_, ?_, ?_⟩
  · exact fun c hc => trimZeros_getLast_ne_zero _ c hc
  · exact fun c hc => trimZeros_getLast_ne_zero _ c hc
  · exact fun h => trim_fixedChars_ends_dot 6 x h
  · exact fun h => trim_fixedChars_ends_dot 15 x h

/-- C6 witness at `x = 1`: all fractional digits of `1.000000` are zero,
the trimmed output ends with the separator, and the separator is not a
zero digit. -/
theorem C6_trimmed_fixed_rendering_witness :
    (to_float_string_f32 (FloatVal.finite 1)).data.getLast? = some '.' ∧ '.' ≠ '0' :=
  ⟨(C6_trimmed_fixed_rendering 1).2.2.2.1 (by decide),
   (C6_trimmed_fixed_rendering 1).2.1 '.' (by decide)⟩

/-- C7: parsing the text produced by `to_float_string` back as a number
recovers the finite input to within half a unit in the last rendered
fractional place: `0.5e-6` for `f32`, `0.5e-15` for `f64`. -/
theorem C7_roundtrip_precision :
    ∀ x : ℚ,
      (∃ q : ℚ, parseDecChars (to_float_string_f32 (FloatVal.finite x)).data = some q ∧
        |x - q| ≤ 1 / 2000000) ∧
      (∃ q : ℚ, parseDecChars (to_float_string_f64 (FloatVal.finite x)).data = some q ∧
        |x - q| ≤ 1 / 2000000000000000) := by
  intro x
  constructor
  · obtain ⟨q, hq, hb⟩ := toFloatString_roundtrip 6 x
    exact ⟨q, hq, le_trans hb (by norm_num)⟩
  · obtain ⟨q, hq, hb⟩ := toFloatString_roundtrip 15 x
    exact ⟨q, hq, le_trans hb (by norm_num)⟩

/-- C8: `to_float_string` is total and never fails: it is a pure total
function of the input (so no panic and no side effect in the embedding),
and for every value — finite, NaN, or either infinity — the returned
string is non-empty. -/
theorem C8_total_nonempty :
    ∀ v : FloatVal, 0 < (to_float_string_f32 v).length ∧ 0 < (to_float_string_f64 v).length := by
  intro v
  cases v with
  | finite q =>
    constructor
    · show 0 < (trimZeros (fixedChars 6 q)).length
      exact List.length_pos.mpr (trim_fixedChars_ne_nil 6 q)
    · show 0 < (trimZeros (fixedChars 15 q)).length
      exact List.length_pos.mpr (trim_fixedChars_ne_nil 15 q)
  | nan => exact ⟨by decide, by decide⟩
  | posInf => exact ⟨by decide, by decide⟩
  | negInf => exact ⟨by decide, by decide⟩

/-- C9: `to_float_string` is deterministic: two invocations on identical
inputs return identical strings (the embedding is a pure function — the
source reads no global state), so the numeric literals contributed to
generated shader source are byte-identical across compilations. -/
theorem C9_deterministic :
    ∀ v₁ v₂ : FloatVal, v₁ = v₂ →
      to_float_string_f32 v₁ = to_float_string_f32 v₂ ∧
      to_float_string_f64 v₁ = to_float_string_f64 v₂ := by
  intro v₁ v₂ h
  rw [h]
  exact ⟨rfl, rfl⟩

/-- C9 witness at a concrete input. -/
theorem C9_deterministic_witness :
    to_float_string_f32 (FloatVal.finite 1) = to_float_string_f32 (FloatVal.finite 1) ∧
    to_float_string_f64 (FloatVal.finite 1) = to_float_string_f64 (FloatVal.finite 1) :=
  C9_deterministic (FloatVal.finite 1) (FloatVal.finite 1) rfl
